import Mathlib

/-!
# Verification of the afl-tmin delta minimizer (src/afl-tmin-delta.cpp)

Shallow embedding of the edit-distance engine, the edit applier, the
delta-debugging search and the seed selector of `afl-tmin-delta.cpp`.
Bytes (`std::byte`) are modelled as `Nat`, `byte_array` as `List Nat`,
`mask_array` as `List Bool`.  The external oracle `crash_predicate`
(which calls the extern `run_target_wrap`) is modelled as an explicit
function parameter `o : List Nat → Bool`; it is a pure function, which
captures the spec's determinism assumption.
-/

set_option maxHeartbeats 1000000

namespace AflTminDelta

/-- The `edit` variant: `std::variant<data_t, std::size_t, data_t>` with
alternatives `INS`, `DEL`, `SUB` (constructors `ins`/`del`/`sub` in the source). -/
inductive Edit where
  | ins (index : Nat) (data : Nat)
  | del (index : Nat)
  | sub (index : Nat) (data : Nat)
deriving DecidableEq, Repr

/-- One cell of the dynamic-programming table (`struct lookup_data_t`).
The C++ value-initialized default (`{}`) is dist 0, no edit, predecessor (0,0). -/
structure LookupData where
  dist : Nat
  last_edit : Option Edit
  last_row : Nat
  last_col : Nat
deriving DecidableEq, Repr

instance : Inhabited LookupData := ⟨⟨0, none, 0, 0⟩⟩

/-- `apply_edit` from the source: mutate a buffer by one edit.  The first
line of the C++ body is `if (orig.empty()) return;`, so every edit is a
no-op on an empty buffer.  Out-of-range positions are clamped: to the
length for an insertion, to `length - 1` for deletion and substitution.
(`orig.insert(begin()+i, b)` is `take i ++ b :: drop i`.) -/
def apply_edit (e : Edit) (orig : List Nat) : List Nat :=
  if orig.isEmpty then orig
  else
    match e with
    | .ins idx b =>
        let i := if orig.length ≤ idx then orig.length else idx
        orig.take i ++ b :: orig.drop i
    | .del idx =>
        let i := if orig.length ≤ idx then orig.length - 1 else idx
        orig.eraseIdx i
    | .sub idx b =>
        let i := if orig.length ≤ idx then orig.length - 1 else idx
        orig.set i b

/-- `apply_edits` from the source: left-to-right application of a trace,
skipping index `i` when `i < mask.size() && !mask[i]`.  Walking the trace
and the mask in step is the same as indexing the mask by the loop counter:
once the mask is exhausted every remaining edit is applied. -/
def apply_edits : List Edit → List Nat → List Bool → List Nat
  | [], buf, _ => buf
  | e :: es, buf, [] => apply_edits es (apply_edit e buf) []
  | e :: es, buf, m :: ms =>
      apply_edits es (if m then apply_edit e buf else buf) ms

/-- The trace-restriction loop inside `delta_edit` (`new_trace.push_back`
for every index with `!(i < mask.size() && !mask[i])`). -/
def mask_filter : List Edit → List Bool → List Edit
  | [], _ => []
  | e :: es, [] => e :: mask_filter es []
  | e :: es, m :: ms =>
      if m then e :: mask_filter es ms else mask_filter es ms

/-- Interior cell of the DP table, for table row `r+1` and column `c+1`
(`a` is `from[i-1]`, `b` is `to[j-1]`, `left` is `lookup[i][j-1]`,
`up` is `lookup[i-1][j]`, `diag` is `lookup[i-1][j-1]`).  Mirrors the body
of the double loop of `edit_distance`: on a match copy the diagonal
distance with no edit; otherwise take the minimum of insert, delete and
substitute cost and record the edit, testing insert first, then delete,
then substitute. -/
def next_cell (r c : Nat) (a b : Nat) (left up diag : LookupData) : LookupData :=
  if a = b then ⟨diag.dist, none, r, c⟩
  else
    let d := min (min left.dist up.dist) diag.dist
    if d = left.dist then ⟨d + 1, some (.ins (r + 1) b), r + 1, c⟩
    else if d = up.dist then ⟨d + 1, some (.del r), r, c + 1⟩
    else ⟨d + 1, some (.sub r b), r, c⟩

/-- Row 0 of the table: `lookup[0][0] = {0, nullopt, 0, 0}` and
`lookup[0][j] = {j, ins(j-1, to[j-1]), 0, j-1}` for `1 ≤ j ≤ |to|`. -/
def row0 (t : List Nat) : List LookupData :=
  ⟨0, none, 0, 0⟩ ::
    (List.range t.length).map (fun c => ⟨c + 1, some (.ins c (t.getD c 0)), 0, c⟩)

/-- Builds the tail of table row `r+1` (columns `c+1` and onwards), walking
the remaining destination bytes `bs` and the suffix of the previous row in
step; `left` is the cell just built in this row. -/
def build_row_go (r a : Nat) : Nat → LookupData → List LookupData → List Nat → List LookupData
  | c, left, diag :: up :: prest, b :: bs =>
      let cell := next_cell r c a b left up diag
      cell :: build_row_go r a (c + 1) cell (up :: prest) bs
  | _, _, _, _ => []

/-- Table row `r+1`: the first-column cell `lookup[i][0] = {i, del(i-1), i-1, 0}`
followed by the interior cells built from the previous row. -/
def build_row (t : List Nat) (r a : Nat) (prev : List LookupData) : List LookupData :=
  let c0 : LookupData := ⟨r + 1, some (.del r), r, 0⟩
  c0 :: build_row_go r a 0 c0 prev t

/-- Rows `r+1 …` of the table, one per remaining source byte. -/
def build_rows (t : List Nat) : Nat → List LookupData → List Nat → List (List LookupData)
  | _, _, [] => []
  | r, prev, a :: as' =>
      let row := build_row t r a prev
      row :: build_rows t (r + 1) row as'

/-- The full `(|from|+1) × (|to|+1)` DP table of `edit_distance`. -/
def lookup_table (f t : List Nat) : List (List LookupData) :=
  row0 t :: build_rows t 0 (row0 t) f

/-- The backward walk of `get_trace`: from cell `(r, c)` follow the recorded
predecessors to `(0, 0)`, collecting every recorded edit in visit order.
The C++ `while (cur_row > 0 || cur_col > 0)` loop is embedded with fuel;
each step of a well-formed table strictly decreases `r + c`, so fuel
`r + c` from the entry cell is enough and the fuel never runs out. -/
def get_trace_go (lookup : List (List LookupData)) : Nat → Nat → Nat → List Edit
  | _, 0, 0 => []
  | 0, _, _ => []
  | fuel + 1, r, c =>
      let cell := (lookup.getD r []).getD c default
      (match cell.last_edit with
       | some e => [e]
       | none => []) ++ get_trace_go lookup fuel cell.last_row cell.last_col

/-- `get_trace` from the source: walk backwards from the bottom-right cell
`(lookup.size()-1, lookup[0].size()-1)`.  (The C++ `dest` parameter is
unused in the body and omitted here.) -/
def get_trace (lookup : List (List LookupData)) : List Edit :=
  let r := lookup.length - 1
  let c := (lookup.headD []).length - 1
  get_trace_go lookup (r + c) r c

/-- `edit_distance` from the source: build the table, return the
bottom-right distance together with the reconstructed trace. -/
def edit_distance (f t : List Nat) : Nat × List Edit :=
  let lookup := lookup_table f t
  (((lookup.getD f.length []).getD t.length default).dist, get_trace lookup)

/-- One iteration of the chunk-scanning `while (start < trace.size())` loop
of `test_partitions`: build the mask that keeps only `[start, end)`, test
it with the oracle, then test its complement, and otherwise advance to the
next chunk.  The loop advances `start` by at least one in every state
reachable from the entry point (`part_size ≥ 1`, or `remainder` counts the
slack left), so `trace.size() + 1` units of fuel always suffice; the fuel
is only the shallow embedding of the while loop. -/
def test_partitions_go (o : List Nat → Bool) (tr : List Edit) (orig : List Nat)
    (part_size : Nat) : Nat → Nat → Nat → Option (List Bool)
  | 0, _, _ => none
  | fuel + 1, remainder, start =>
      if start < tr.length then
        let endIdx := if 0 < remainder then start + part_size + 1 else start + part_size
        let rem' := if 0 < remainder then remainder - 1 else remainder
        let mask := (List.range tr.length).map (fun j => decide (start ≤ j ∧ j < endIdx))
        if o (apply_edits tr orig mask) then some mask
        else
          let cmask := mask.map (fun x => !x)
          if o (apply_edits tr orig cmask) then some cmask
          else test_partitions_go o tr orig part_size fuel rem' endIdx
      else none

/-- `test_partitions` from the source: scan `parts` near-equal contiguous
chunks (`part_size = size / parts`, the first `size % parts` chunks one
element longer), returning the first chunk mask or complement mask whose
application the oracle accepts, and `none` (the C++ empty optional) when
no chunk at this granularity succeeds. -/
def test_partitions (o : List Nat → Bool) (tr : List Edit) (orig : List Nat)
    (parts : Nat) : Option (List Bool) :=
  test_partitions_go o tr orig (tr.length / parts) (tr.length + 1) (tr.length % parts) 0

theorem apply_edits_mask_filter (tr : List Edit) :
    ∀ (orig : List Nat) (mask : List Bool),
      apply_edits tr orig mask = apply_edits (mask_filter tr mask) orig [] := by
  induction tr with
  | nil => intro orig mask; cases mask <;> rfl
  | cons e es ih =>
      intro orig mask
      cases mask with
      | nil => simp only [apply_edits, mask_filter]; exact ih (apply_edit e orig) []
      | cons m ms =>
          cases m with
          | false => simp only [apply_edits, mask_filter, if_neg, Bool.false_eq_true,
              not_false_eq_true, if_false]; exact ih orig ms
          | true => simp only [apply_edits, mask_filter, if_pos]; exact ih (apply_edit e orig) ms

theorem mask_filter_length_le (tr : List Edit) :
    ∀ mask : List Bool, (mask_filter tr mask).length ≤ tr.length := by
  induction tr with
  | nil => intro mask; cases mask <;> simp [mask_filter]
  | cons e es ih =>
      intro mask
      cases mask with
      | nil => simpa [mask_filter] using ih []
      | cons m ms =>
          cases m with
          | false => simp only [mask_filter, if_neg, Bool.false_eq_true, not_false_eq_true,
              if_false, List.length_cons]; exact Nat.le_succ_of_le (ih ms)
          | true => simpa [mask_filter] using ih ms

theorem mask_filter_length_count (tr : List Edit) :
    ∀ mask : List Bool, mask.length = tr.length →
      (mask_filter tr mask).length = mask.count true := by
  induction tr with
  | nil =>
      intro mask h
      cases mask with
      | nil => rfl
      | cons m ms => simp at h
  | cons e es ih =>
      intro mask h
      cases mask with
      | nil => simp at h
      | cons m ms =>
          simp only [List.length_cons, Nat.succ_inj] at h
          cases m with
          | false => simp only [mask_filter, if_neg, Bool.false_eq_true, not_false_eq_true,
              if_false]
                     rw [ih ms h]
                     simp [List.count_cons]
          | true => simp only [mask_filter, if_pos, List.length_cons]
                    rw [ih ms h]
                    simp [List.count_cons]

theorem count_true_lt_of_false_mem :
    ∀ (l : List Bool), false ∈ l → l.count true < l.length := by
  intro l
  induction l with
  | nil => intro hl; cases hl
  | cons x xs ih =>
      intro hl
      rcases List.mem_cons.mp hl with hx | hx
      · subst hx
        have : List.count true xs ≤ xs.length := List.count_le_length true xs
        simp [List.count_cons]
        omega
      · have := ih hx
        simp only [List.count_cons, List.length_cons]
        split <;> omega

theorem count_true_lt_len (l : List Bool) (L : Nat) (hlen : l.length = L)
    (hf : false ∈ l) : l.count true < L :=
  hlen ▸ count_true_lt_of_false_mem l hf

theorem test_partitions_go_spec (o : List Nat → Bool) (tr : List Edit) (orig : List Nat)
    (ps rem0 : Nat) (hL : 2 ≤ tr.length) (hkey : 2 * ps + rem0 ≤ tr.length) :
    ∀ (fuel remainder start : Nat) (mask : List Bool),
      (ps = 0 → remainder + start = tr.length) →
      (start = 0 → remainder = rem0) →
      test_partitions_go o tr orig ps fuel remainder start = some mask →
      mask.length = tr.length ∧ o (apply_edits tr orig mask) = true ∧
        mask.count true < tr.length := by
  intro fuel
  induction fuel with
  | zero =>
      intro rem s mask _ _ h
      simp [test_partitions_go] at h
  | succ fuel ih =>
      intro rem s mask hps hs0 h
      simp only [test_partitions_go] at h
      by_cases hstart : s < tr.length
      · rw [if_pos hstart] at h
        by_cases hrem : 0 < rem
        · simp only [if_pos hrem] at h
          -- endIdx = start + part_size + 1, remainder decremented
          split at h
          · -- chunk mask accepted
            rename_i hacc
            rcases Option.some.inj h with rfl
            refine ⟨by simp, hacc, count_true_lt_len _ _ (by simp) ?_⟩
            by_cases hs : s = 0
            · subst hs
              have hrem0 := hs0 rfl
              have hend : ps + 1 < tr.length := by omega
              refine List.mem_map.mpr ⟨ps + 1, List.mem_range.mpr (by omega), ?_⟩
              simp
            · refine List.mem_map.mpr ⟨0, List.mem_range.mpr (by omega), ?_⟩
              simp; omega
          · split at h
            · -- complement mask accepted
              rename_i hacc
              rcases Option.some.inj h with rfl
              refine ⟨by simp, hacc, count_true_lt_len _ _ (by simp) ?_⟩
              refine List.mem_map.mpr ⟨decide (s ≤ s ∧ s < s + ps + 1), ?_, ?_⟩
              · exact List.mem_map.mpr ⟨s, List.mem_range.mpr hstart, rfl⟩
              · simp; omega
            · -- recurse on the next chunk
              have inv1 : ps = 0 → (rem - 1) + (s + ps + 1) = tr.length := by
                intro hz
                have := hps hz
                omega
              have inv2 : s + ps + 1 = 0 → rem - 1 = rem0 := by
                intro hz
                omega
              exact ih (rem - 1) (s + ps + 1) mask inv1 inv2 h
        · simp only [if_neg hrem] at h
          -- remainder exhausted: endIdx = start + part_size
          have hpsge : 1 ≤ ps := by
            by_contra hc
            have := hps (by omega)
            omega
          split at h
          · rename_i hacc
            rcases Option.some.inj h with rfl
            refine ⟨by simp, hacc, count_true_lt_len _ _ (by simp) ?_⟩
            by_cases hs : s = 0
            · subst hs
              refine List.mem_map.mpr ⟨ps, List.mem_range.mpr (by omega), ?_⟩
              simp
            · refine List.mem_map.mpr ⟨0, List.mem_range.mpr (by omega), ?_⟩
              simp; omega
          · split at h
            · rename_i hacc
              rcases Option.some.inj h with rfl
              refine ⟨by simp, hacc, count_true_lt_len _ _ (by simp) ?_⟩
              refine List.mem_map.mpr ⟨decide (s ≤ s ∧ s < s + ps), ?_, ?_⟩
              · exact List.mem_map.mpr ⟨s, List.mem_range.mpr hstart, rfl⟩
              · simp; omega
            · have inv1 : ps = 0 → rem + (s + ps) = tr.length := by
                intro hz
                omega
              have inv2 : s + ps = 0 → rem = rem0 := by
                intro hz
                omega
              exact ih rem (s + ps) mask inv1 inv2 h
      · rw [if_neg hstart] at h
        simp at h

/-- Any mask returned by `test_partitions` has the trace\'s length, is
accepted by the oracle, and keeps strictly fewer than all edits
(for `parts ≥ 2` and at least two edits): each chunk is a proper nonempty
sub-range, so both it and its complement drop at least one edit. -/
theorem test_partitions_some_spec (o : List Nat → Bool) (tr : List Edit) (orig : List Nat)
    (parts : Nat) (mask : List Bool) (hparts : 2 ≤ parts) (hL : 2 ≤ tr.length)
    (h : test_partitions o tr orig parts = some mask) :
    mask.length = tr.length ∧ o (apply_edits tr orig mask) = true ∧
      mask.count true < tr.length := by
  have hkey : 2 * (tr.length / parts) + tr.length % parts ≤ tr.length := by
    have h1 := Nat.div_add_mod tr.length parts
    have h2 : 2 * (tr.length / parts) ≤ parts * (tr.length / parts) :=
      Nat.mul_le_mul hparts (Nat.le_refl _)
    set D := tr.length / parts with hD
    set M := tr.length % parts with hM
    set P := parts * D with hP
    omega
  exact test_partitions_go_spec o tr orig (tr.length / parts) (tr.length % parts)
    hL hkey (tr.length + 1) (tr.length % parts) 0 mask
    (fun hz => by
      have h1 := Nat.div_add_mod tr.length parts
      rw [hz, Nat.mul_zero, Nat.zero_add] at h1
      omega)
    (fun _ => rfl) h

/-- The shrink step of `delta_edit` strictly reduces the working trace. -/
theorem mask_filter_lt_of_test_partitions (o : List Nat → Bool) (tr : List Edit)
    (orig : List Nat) (parts : Nat) (mask : List Bool)
    (hparts : 2 ≤ parts) (hL : 2 ≤ tr.length)
    (h : test_partitions o tr orig parts = some mask) :
    (mask_filter tr mask).length < tr.length := by
  obtain ⟨hlen, _, hcount⟩ := test_partitions_some_spec o tr orig parts mask hparts hL h
  rw [mask_filter_length_count tr mask hlen]
  exact hcount

/-- The `while (cur_trace.size() > 1 && parts <= 2 * cur_trace.size())`
loop of `delta_edit`.  On a successful partition test the surviving edits
become the working trace and the partition count resets to 2; otherwise
the partition count doubles.  The ghost hypothesis `h : 2 ≤ parts`
records that the partition count starts at 2 and afterwards only doubles
or resets to 2; it carries no data and is used only for termination
(every successful test strictly shrinks the trace, and between shrinks
the partition count strictly grows up to its bound). -/
def delta_edit_loop (o : List Nat → Bool) (orig : List Nat)
    (cur : List Edit) (parts : Nat) (h : 2 ≤ parts) : List Edit :=
  if hg : 1 < cur.length ∧ parts ≤ 2 * cur.length then
    match hm : test_partitions o cur orig parts with
    | some mask => delta_edit_loop o orig (mask_filter cur mask) 2 (Nat.le_refl 2)
    | none => delta_edit_loop o orig cur (2 * parts) (by omega)
  else cur
termination_by (cur.length, 2 * cur.length + 1 - parts)
decreasing_by
  · apply Prod.Lex.left
    exact mask_filter_lt_of_test_partitions o cur orig parts mask h (by omega) hm
  · apply Prod.Lex.right
    omega

/-- `delta_edit` from the source: run the partition-shrinking loop from
`parts = 2` on a copy of the input trace. -/
def delta_edit (o : List Nat → Bool) (trace : List Edit) (orig : List Nat) : List Edit :=
  delta_edit_loop o orig trace 2 (Nat.le_refl 2)

/-- Ghost instrumentation of `delta_edit_loop`: the list of successive
values installed into the working trace (`cur_trace = new_trace;` in the
source), in the order they are installed.  Used only to state properties
about the intermediate states of the run. -/
def delta_edit_loop_hist (o : List Nat → Bool) (orig : List Nat)
    (cur : List Edit) (parts : Nat) (h : 2 ≤ parts) : List (List Edit) :=
  if hg : 1 < cur.length ∧ parts ≤ 2 * cur.length then
    match hm : test_partitions o cur orig parts with
    | some mask =>
        mask_filter cur mask ::
          delta_edit_loop_hist o orig (mask_filter cur mask) 2 (Nat.le_refl 2)
    | none => delta_edit_loop_hist o orig cur (2 * parts) (by omega)
  else []
termination_by (cur.length, 2 * cur.length + 1 - parts)
decreasing_by
  · apply Prod.Lex.left
    exact mask_filter_lt_of_test_partitions o cur orig parts mask h (by omega) hm
  · apply Prod.Lex.right
    omega

/-- The replacement history of a `delta_edit` run. -/
def delta_edit_hist (o : List Nat → Bool) (trace : List Edit) (orig : List Nat) :
    List (List Edit) :=
  delta_edit_loop_hist o orig trace 2 (Nat.le_refl 2)

theorem delta_edit_loop_exit (o : List Nat → Bool) (orig : List Nat)
    (cur : List Edit) (parts : Nat) (h : 2 ≤ parts)
    (hg : ¬(1 < cur.length ∧ parts ≤ 2 * cur.length)) :
    delta_edit_loop o orig cur parts h = cur := by
  rw [delta_edit_loop, dif_neg hg]

theorem delta_edit_loop_of_some (o : List Nat → Bool) (orig : List Nat)
    (cur : List Edit) (parts : Nat) (h : 2 ≤ parts) (mask : List Bool)
    (hg1 : 1 < cur.length) (hg2 : parts ≤ 2 * cur.length)
    (hm : test_partitions o cur orig parts = some mask) :
    delta_edit_loop o orig cur parts h =
      delta_edit_loop o orig (mask_filter cur mask) 2 (Nat.le_refl 2) := by
  rw [delta_edit_loop, dif_pos ⟨hg1, hg2⟩]
  split
  · rename_i mask' hm'
    rw [hm] at hm'
    rcases Option.some.inj hm' with rfl
    rfl
  · rename_i hm'
    rw [hm] at hm'
    cases hm'

theorem delta_edit_loop_of_none (o : List Nat → Bool) (orig : List Nat)
    (cur : List Edit) (parts : Nat) (h : 2 ≤ parts)
    (hg1 : 1 < cur.length) (hg2 : parts ≤ 2 * cur.length)
    (hm : test_partitions o cur orig parts = none) :
    delta_edit_loop o orig cur parts h =
      delta_edit_loop o orig cur (2 * parts) (by omega) := by
  rw [delta_edit_loop, dif_pos ⟨hg1, hg2⟩]
  split
  · rename_i mask' hm'
    rw [hm] at hm'
    cases hm'
  · rfl

theorem delta_edit_loop_hist_exit (o : List Nat → Bool) (orig : List Nat)
    (cur : List Edit) (parts : Nat) (h : 2 ≤ parts)
    (hg : ¬(1 < cur.length ∧ parts ≤ 2 * cur.length)) :
    delta_edit_loop_hist o orig cur parts h = [] := by
  rw [delta_edit_loop_hist, dif_neg hg]

theorem delta_edit_loop_hist_of_some (o : List Nat → Bool) (orig : List Nat)
    (cur : List Edit) (parts : Nat) (h : 2 ≤ parts) (mask : List Bool)
    (hg1 : 1 < cur.length) (hg2 : parts ≤ 2 * cur.length)
    (hm : test_partitions o cur orig parts = some mask) :
    delta_edit_loop_hist o orig cur parts h =
      mask_filter cur mask ::
        delta_edit_loop_hist o orig (mask_filter cur mask) 2 (Nat.le_refl 2) := by
  rw [delta_edit_loop_hist, dif_pos ⟨hg1, hg2⟩]
  split
  · rename_i mask' hm'
    rw [hm] at hm'
    rcases Option.some.inj hm' with rfl
    rfl
  · rename_i hm'
    rw [hm] at hm'
    cases hm'

theorem delta_edit_loop_hist_of_none (o : List Nat → Bool) (orig : List Nat)
    (cur : List Edit) (parts : Nat) (h : 2 ≤ parts)
    (hg1 : 1 < cur.length) (hg2 : parts ≤ 2 * cur.length)
    (hm : test_partitions o cur orig parts = none) :
    delta_edit_loop_hist o orig cur parts h =
      delta_edit_loop_hist o orig cur (2 * parts) (by omega) := by
  rw [delta_edit_loop_hist, dif_pos ⟨hg1, hg2⟩]
  split
  · rename_i mask' hm'
    rw [hm] at hm'
    cases hm'
  · rfl

/-- Induction principle following the control flow of `delta_edit_loop`:
to establish a property of every loop state reachable from an entry state,
prove it at loop exit, across a successful partition test (shrink and
reset to 2 partitions), and across a failed one (double the partitions). -/
theorem delta_edit_loop_induction (o : List Nat → Bool) (orig : List Nat)
    (P : List Edit → Nat → Prop)
    (hexit : ∀ cur parts, 2 ≤ parts → ¬(1 < cur.length ∧ parts ≤ 2 * cur.length) →
      P cur parts)
    (hsome : ∀ cur parts mask, 2 ≤ parts → 1 < cur.length → parts ≤ 2 * cur.length →
      test_partitions o cur orig parts = some mask →
      P (mask_filter cur mask) 2 → P cur parts)
    (hnone : ∀ cur parts, 2 ≤ parts → 1 < cur.length → parts ≤ 2 * cur.length →
      test_partitions o cur orig parts = none →
      P cur (2 * parts) → P cur parts) :
    ∀ cur parts, 2 ≤ parts → P cur parts := by
  suffices H : ∀ n k cur parts, cur.length ≤ n → 2 * cur.length + 2 - parts ≤ k →
      2 ≤ parts → P cur parts by
    intro cur parts hp
    exact H cur.length (2 * cur.length + 2) cur parts (Nat.le_refl _) (by omega) hp
  intro n
  induction n with
  | zero =>
      intro k cur parts hn hk hp
      refine hexit cur parts hp ?_
      intro hcontra
      omega
  | succ n ihn =>
      intro k
      induction k with
      | zero =>
          intro cur parts hn hk hp
          refine hexit cur parts hp ?_
          intro hcontra
          omega
      | succ k ihk =>
          intro cur parts hn hk hp
          by_cases hg : 1 < cur.length ∧ parts ≤ 2 * cur.length
          · cases hm : test_partitions o cur orig parts with
            | some mask =>
                have hlt := mask_filter_lt_of_test_partitions o cur orig parts mask hp
                  (by omega) hm
                refine hsome cur parts mask hp hg.1 hg.2 hm ?_
                exact ihn (2 * (mask_filter cur mask).length + 2) (mask_filter cur mask) 2
                  (by omega) (by omega) (by omega)
            | none =>
                refine hnone cur parts hp hg.1 hg.2 hm ?_
                exact ihk cur (2 * parts) hn (by omega) (by omega)
          · exact hexit cur parts hp hg

theorem delta_edit_loop_oracle_inv (o : List Nat → Bool) (orig : List Nat) :
    ∀ cur parts, 2 ≤ parts → ∀ (h : 2 ≤ parts), o (apply_edits cur orig []) = true →
      o (apply_edits (delta_edit_loop o orig cur parts h) orig []) = true ∧
      ∀ t ∈ delta_edit_loop_hist o orig cur parts h, o (apply_edits t orig []) = true := by
  refine delta_edit_loop_induction o orig
    (fun cur parts => ∀ (h : 2 ≤ parts), o (apply_edits cur orig []) = true →
      o (apply_edits (delta_edit_loop o orig cur parts h) orig []) = true ∧
      ∀ t ∈ delta_edit_loop_hist o orig cur parts h, o (apply_edits t orig []) = true)
    ?_ ?_ ?_
  · intro cur parts hp hg h hcur
    rw [delta_edit_loop_exit o orig cur parts h hg,
        delta_edit_loop_hist_exit o orig cur parts h hg]
    exact ⟨hcur, by simp⟩
  · intro cur parts mask hp h1 h2 hm IH h hcur
    obtain ⟨hlen, hacc, _⟩ := test_partitions_some_spec o cur orig parts mask hp (by omega) hm
    have hnew : o (apply_edits (mask_filter cur mask) orig []) = true := by
      rw [← apply_edits_mask_filter]
      exact hacc
    rw [delta_edit_loop_of_some o orig cur parts h mask h1 h2 hm,
        delta_edit_loop_hist_of_some o orig cur parts h mask h1 h2 hm]
    obtain ⟨ih1, ih2⟩ := IH (Nat.le_refl 2) hnew
    refine ⟨ih1, ?_⟩
    intro t ht
    rcases List.mem_cons.mp ht with rfl | ht
    · exact hnew
    · exact ih2 t ht
  · intro cur parts hp h1 h2 hm IH h hcur
    rw [delta_edit_loop_of_none o orig cur parts h h1 h2 hm,
        delta_edit_loop_hist_of_none o orig cur parts h h1 h2 hm]
    exact IH (by omega) hcur

theorem delta_edit_loop_length_inv (o : List Nat → Bool) (orig : List Nat) :
    ∀ cur parts, 2 ≤ parts → ∀ (h : 2 ≤ parts),
      (delta_edit_loop o orig cur parts h).length ≤ cur.length ∧
      List.Chain' (fun a b => b.length ≤ a.length)
        (cur :: delta_edit_loop_hist o orig cur parts h) := by
  refine delta_edit_loop_induction o orig
    (fun cur parts => ∀ (h : 2 ≤ parts),
      (delta_edit_loop o orig cur parts h).length ≤ cur.length ∧
      List.Chain' (fun a b => b.length ≤ a.length)
        (cur :: delta_edit_loop_hist o orig cur parts h))
    ?_ ?_ ?_
  · intro cur parts hp hg h
    rw [delta_edit_loop_exit o orig cur parts h hg,
        delta_edit_loop_hist_exit o orig cur parts h hg]
    exact ⟨Nat.le_refl _, List.chain'_singleton cur⟩
  · intro cur parts mask hp h1 h2 hm IH h
    have hle : (mask_filter cur mask).length ≤ cur.length := mask_filter_length_le cur mask
    rw [delta_edit_loop_of_some o orig cur parts h mask h1 h2 hm,
        delta_edit_loop_hist_of_some o orig cur parts h mask h1 h2 hm]
    obtain ⟨ih1, ih2⟩ := IH (Nat.le_refl 2)
    exact ⟨Nat.le_trans ih1 hle, List.chain'_cons.mpr ⟨hle, ih2⟩⟩
  · intro cur parts hp h1 h2 hm IH h
    rw [delta_edit_loop_of_none o orig cur parts h h1 h2 hm,
        delta_edit_loop_hist_of_none o orig cur parts h h1 h2 hm]
    exact IH (by omega)

/-- `find_closest_initial` from the source, with the global corpus
`input_testcases` made an explicit parameter.  An empty corpus throws
`std::logic_error("No testcases specified!")`, modelled as `Except.error`.
The C++ sentinel `min_dist = static_cast<size_t>(-1)` together with the
null `ptr_max` means "no candidate seen yet"; it is modelled as a `none`
accumulator (every real edit distance is below `SIZE_MAX`, so the first
corpus element always replaces the sentinel, exactly as in the C++). -/
def closest_fold (crash : List Nat) (acc : Option (Nat × List Nat))
    (testcase : List Nat) : Option (Nat × List Nat) :=
  let d := (edit_distance testcase crash).1
  match acc with
  | none => some (d, testcase)
  | some (md, p) => if d < md then some (d, testcase) else some (md, p)

def find_closest_initial (corpus : List (List Nat)) (crash : List Nat) :
    Except String (List Nat) :=
  if corpus = [] then .error "No testcases specified!"
  else
    match corpus.foldl (closest_fold crash) none with
    | some (_, p) => .ok p
    | none => .error "No testcases specified!"

theorem closest_fold_spec (crash : List Nat) :
    ∀ (l : List (List Nat)) (d0 : Nat) (s0 : List Nat),
      ∃ d s, l.foldl (closest_fold crash) (some (d0, s0)) = some (d, s) ∧
        ((s = s0 ∧ d = d0 ∧ ∀ u ∈ l, d0 ≤ (edit_distance u crash).1) ∨
         (∃ pre post, l = pre ++ s :: post ∧ d = (edit_distance s crash).1 ∧ d < d0 ∧
           (∀ u ∈ pre, d < (edit_distance u crash).1) ∧
           (∀ u ∈ post, d ≤ (edit_distance u crash).1))) := by
  intro l
  induction l with
  | nil =>
      intro d0 s0
      exact ⟨d0, s0, rfl, Or.inl ⟨rfl, rfl, by simp⟩⟩
  | cons tc rest ih =>
      intro d0 s0
      by_cases hlt : (edit_distance tc crash).1 < d0
      · have hstep : (tc :: rest).foldl (closest_fold crash) (some (d0, s0)) =
            rest.foldl (closest_fold crash) (some ((edit_distance tc crash).1, tc)) := by
          simp [List.foldl_cons, closest_fold, if_pos hlt]
        obtain ⟨d, s, hfold, hcase⟩ := ih (edit_distance tc crash).1 tc
        refine ⟨d, s, by rw [hstep]; exact hfold, Or.inr ?_⟩
        rcases hcase with ⟨rfl, rfl, hall⟩ | ⟨pre, post, hsplit, hd, hdlt, hpre, hpost⟩
        · exact ⟨[], rest, rfl, rfl, hlt, by simp, hall⟩
        · refine ⟨tc :: pre, post, by rw [hsplit, List.cons_append], hd, by omega, ?_, hpost⟩
          intro u hu
          rcases List.mem_cons.mp hu with rfl | hu
          · omega
          · exact hpre u hu
      · have hstep : (tc :: rest).foldl (closest_fold crash) (some (d0, s0)) =
            rest.foldl (closest_fold crash) (some (d0, s0)) := by
          simp [List.foldl_cons, closest_fold, if_neg hlt]
        obtain ⟨d, s, hfold, hcase⟩ := ih d0 s0
        refine ⟨d, s, by rw [hstep]; exact hfold, ?_⟩
        rcases hcase with ⟨rfl, rfl, hall⟩ | ⟨pre, post, hsplit, hd, hdlt, hpre, hpost⟩
        · refine Or.inl ⟨rfl, rfl, ?_⟩
          intro u hu
          rcases List.mem_cons.mp hu with rfl | hu
          · omega
          · exact hall u hu
        · refine Or.inr ⟨tc :: pre, post, by rw [hsplit, List.cons_append], hd, hdlt, ?_, hpost⟩
          intro u hu
          rcases List.mem_cons.mp hu with rfl | hu
          · omega
          · exact hpre u hu

/-- The Levenshtein recurrence that the table-filling loops of
`edit_distance` compute, as a function of the cell coordinates; proof-side
description of `lookup_table` (the bridge is `lookup_table_eq` below). -/
def cellSpec (f t : List Nat) : Nat → Nat → LookupData
  | 0, 0 => ⟨0, none, 0, 0⟩
  | r + 1, 0 => ⟨r + 1, some (.del r), r, 0⟩
  | 0, c + 1 => ⟨c + 1, some (.ins c (t.getD c 0)), 0, c⟩
  | r + 1, c + 1 =>
      next_cell r c (f.getD r 0) (t.getD c 0)
        (cellSpec f t (r + 1) c) (cellSpec f t r (c + 1)) (cellSpec f t r c)
termination_by r c => (r, c)

/-- Row `r` of the table as described by `cellSpec`. -/
def rowSpec (f t : List Nat) (r : Nat) : List LookupData :=
  (List.range (t.length + 1)).map (cellSpec f t r)

theorem getD_range_map {β : Type} (g : Nat → β) (N i : Nat) (d : β) (h : i < N) :
    ((List.range N).map g).getD i d = g i := by
  rw [List.getD_eq_getElem?_getD, List.getElem?_map, List.getElem?_range h]
  rfl

theorem drop_eq_getD_cons {α : Type} (l : List α) (d : α) (i : Nat) (h : i < l.length) :
    l.drop i = l.getD i d :: l.drop (i + 1) := by
  rw [List.drop_eq_getElem_cons h]
  congr 1
  rw [List.getD_eq_getElem?_getD, List.getElem?_eq_getElem h]
  rfl

theorem row0_eq (f t : List Nat) : row0 t = rowSpec f t 0 := by
  rw [row0, rowSpec, List.range_succ_eq_map, List.map_cons, List.map_map]
  congr 1
  · simp [cellSpec]
  · refine List.map_congr_left ?_
    intro c _
    simp [cellSpec, Function.comp]

theorem rowSpec_getD (f t : List Nat) (r c : Nat) (h : c ≤ t.length) :
    (rowSpec f t r).getD c default = cellSpec f t r c := by
  rw [rowSpec]
  exact getD_range_map _ _ _ _ (by omega)

theorem rowSpec_drop (f t : List Nat) (r c : Nat) (h : c ≤ t.length) :
    (rowSpec f t r).drop c = cellSpec f t r c :: (rowSpec f t r).drop (c + 1) := by
  rw [drop_eq_getD_cons (rowSpec f t r) default c (by simp [rowSpec]; omega)]
  rw [rowSpec_getD f t r c h]

theorem range_map_shift {β : Type} (g : Nat → β) (base k : Nat) :
    (List.range (k + 1)).map (fun j => g (base + j)) =
      g base :: (List.range k).map (fun j => g (base + 1 + j)) := by
  rw [List.range_succ_eq_map, List.map_cons, List.map_map]
  refine congrArg₂ _ (by norm_num) ?_
  refine List.map_congr_left ?_
  intro j _
  simp only [Function.comp]
  congr 1
  omega

theorem range_map_succ {β : Type} (g : Nat → β) (k : Nat) :
    (List.range (k + 1)).map g = g 0 :: (List.range k).map (fun j => g (j + 1)) := by
  rw [List.range_succ_eq_map, List.map_cons, List.map_map]
  refine congrArg₂ _ rfl ?_
  refine List.map_congr_left ?_
  intro j _
  rfl

theorem build_row_go_eq (f t : List Nat) (r : Nat) :
    ∀ (k c : Nat), c + k = t.length →
      build_row_go r (f.getD r 0) c (cellSpec f t (r + 1) c)
        ((rowSpec f t r).drop c) (t.drop c) =
      (List.range k).map (fun j => cellSpec f t (r + 1) (c + 1 + j)) := by
  intro k
  induction k with
  | zero =>
      intro c hc
      have ht : t.drop c = [] := List.drop_eq_nil_of_le (by omega)
      have hrow1 : (rowSpec f t r).drop c =
          cellSpec f t r c :: (rowSpec f t r).drop (c + 1) :=
        rowSpec_drop f t r c (by omega)
      have hrow2 : (rowSpec f t r).drop (c + 1) = [] := by
        apply List.drop_eq_nil_of_le
        simp [rowSpec]
        omega
      rw [ht, hrow1, hrow2]
      rfl
  | succ k ihk =>
      intro c hc
      have ht : t.drop c = t.getD c 0 :: t.drop (c + 1) := drop_eq_getD_cons t 0 c (by omega)
      have hrow1 : (rowSpec f t r).drop c =
          cellSpec f t r c :: (rowSpec f t r).drop (c + 1) :=
        rowSpec_drop f t r c (by omega)
      have hrow2 : (rowSpec f t r).drop (c + 1) =
          cellSpec f t r (c + 1) :: (rowSpec f t r).drop (c + 2) :=
        rowSpec_drop f t r (c + 1) (by omega)
      rw [ht, hrow1, hrow2]
      simp only [build_row_go]
      rw [← hrow2]
      have hcell : next_cell r c (f.getD r 0) (t.getD c 0) (cellSpec f t (r + 1) c)
          (cellSpec f t r (c + 1)) (cellSpec f t r c) = cellSpec f t (r + 1) (c + 1) := by
        simp [cellSpec]
      rw [hcell, ihk (c + 1) (by omega), range_map_shift (cellSpec f t (r + 1)) (c + 1) k]

theorem build_row_eq (f t : List Nat) (r : Nat) :
    build_row t r (f.getD r 0) (rowSpec f t r) = rowSpec f t (r + 1) := by
  rw [build_row]
  have hc0 : (⟨r + 1, some (.del r), r, 0⟩ : LookupData) = cellSpec f t (r + 1) 0 := by
    simp [cellSpec]
  rw [hc0]
  have hgo := build_row_go_eq f t r t.length 0 (by omega)
  rw [List.drop_zero, List.drop_zero] at hgo
  rw [hgo, rowSpec, range_map_succ (cellSpec f t (r + 1)) t.length]
  congr 1
  refine List.map_congr_left ?_
  intro j _
  congr 1
  omega

theorem build_rows_eq (f t : List Nat) :
    ∀ (fs : List Nat) (r : Nat), fs = f.drop r →
      build_rows t r (rowSpec f t r) fs =
        (List.range fs.length).map (fun j => rowSpec f t (r + 1 + j)) := by
  intro fs
  induction fs with
  | nil => intro r _; rfl
  | cons a fs' ih =>
      intro r hr
      have hrl : r < f.length := by
        by_contra hc
        rw [List.drop_eq_nil_of_le (by omega)] at hr
        cases hr
      have hdrop : f.drop r = f.getD r 0 :: f.drop (r + 1) := drop_eq_getD_cons f 0 r hrl
      rw [hdrop] at hr
      rcases List.cons.inj hr with ⟨rfl, rfl⟩
      simp only [build_rows]
      rw [build_row_eq f t r, ih (r + 1) rfl, List.length_cons,
        range_map_shift (rowSpec f t) (r + 1) (f.drop (r + 1)).length]

/-- The iteratively built DP table equals the recurrence description. -/
theorem lookup_table_eq (f t : List Nat) :
    lookup_table f t = (List.range (f.length + 1)).map (rowSpec f t) := by
  rw [lookup_table, row0_eq f t]
  have hrows := build_rows_eq f t f 0 (by rw [List.drop_zero])
  rw [hrows, range_map_succ (rowSpec f t) f.length]
  congr 1
  refine List.map_congr_left ?_
  intro j _
  congr 1
  omega

/-- Reading any in-range cell of the table yields the recurrence value. -/
theorem table_cell (f t : List Nat) (r c : Nat) (hr : r ≤ f.length) (hc : c ≤ t.length) :
    ((lookup_table f t).getD r []).getD c default = cellSpec f t r c := by
  rw [lookup_table_eq, getD_range_map _ _ _ _ (by omega)]
  exact rowSpec_getD f t r c hc

theorem cellSpec_col0_dist (f t : List Nat) : ∀ r, (cellSpec f t r 0).dist = r := by
  intro r
  cases r <;> simp [cellSpec]

theorem cellSpec_row0_dist (f t : List Nat) : ∀ c, (cellSpec f t 0 c).dist = c := by
  intro c
  cases c <;> simp [cellSpec]

/-- Every cell except the origin records a predecessor strictly closer to
the origin, and its distance is the predecessor's distance plus one
exactly when an edit is recorded. -/
theorem cellSpec_step (f t : List Nat) :
    ∀ r c, ¬(r = 0 ∧ c = 0) →
      ((cellSpec f t r c).last_row ≤ r ∧ (cellSpec f t r c).last_col ≤ c ∧
        (cellSpec f t r c).last_row + (cellSpec f t r c).last_col < r + c) ∧
      (cellSpec f t r c).dist =
        (cellSpec f t (cellSpec f t r c).last_row (cellSpec f t r c).last_col).dist +
          (if (cellSpec f t r c).last_edit.isSome then 1 else 0) := by
  intro r c hrc
  match r, c with
  | 0, 0 => exact absurd ⟨rfl, rfl⟩ hrc
  | r + 1, 0 =>
      refine ⟨by simp [cellSpec], ?_⟩
      simp [cellSpec, cellSpec_col0_dist]
  | 0, c + 1 =>
      refine ⟨by simp [cellSpec], ?_⟩
      simp [cellSpec, cellSpec_row0_dist]
  | r + 1, c + 1 =>
      have hmain : cellSpec f t (r + 1) (c + 1) =
          next_cell r c (f.getD r 0) (t.getD c 0)
            (cellSpec f t (r + 1) c) (cellSpec f t r (c + 1)) (cellSpec f t r c) := by
        simp [cellSpec]
      by_cases hab : f.getD r 0 = t.getD c 0
      · have hcell : cellSpec f t (r + 1) (c + 1) =
            ⟨(cellSpec f t r c).dist, none, r, c⟩ := by
          rw [hmain, next_cell, if_pos hab]
        rw [hcell]
        exact ⟨⟨by simp, by simp, by simp; omega⟩, by simp⟩
      · by_cases h1 : min (min (cellSpec f t (r + 1) c).dist (cellSpec f t r (c + 1)).dist)
            (cellSpec f t r c).dist = (cellSpec f t (r + 1) c).dist
        · have hcell : cellSpec f t (r + 1) (c + 1) =
              ⟨min (min (cellSpec f t (r + 1) c).dist (cellSpec f t r (c + 1)).dist)
                  (cellSpec f t r c).dist + 1,
                some (.ins (r + 1) (t.getD c 0)), r + 1, c⟩ := by
            rw [hmain]
            simp only [next_cell]
            rw [if_neg hab, if_pos h1]
          rw [hcell]
          refine ⟨⟨by simp, by simp, by simp⟩, ?_⟩
          simp only [Option.isSome_some, if_pos]
          rw [h1]
        · by_cases h2 : min (min (cellSpec f t (r + 1) c).dist (cellSpec f t r (c + 1)).dist)
              (cellSpec f t r c).dist = (cellSpec f t r (c + 1)).dist
          · have hcell : cellSpec f t (r + 1) (c + 1) =
                ⟨min (min (cellSpec f t (r + 1) c).dist (cellSpec f t r (c + 1)).dist)
                    (cellSpec f t r c).dist + 1,
                  some (.del r), r, c + 1⟩ := by
              rw [hmain]
              simp only [next_cell]
              rw [if_neg hab, if_neg h1, if_pos h2]
            rw [hcell]
            refine ⟨⟨by simp, by simp, by simp⟩, ?_⟩
            simp only [Option.isSome_some, if_pos]
            rw [h2]
          · have hcell : cellSpec f t (r + 1) (c + 1) =
                ⟨min (min (cellSpec f t (r + 1) c).dist (cellSpec f t r (c + 1)).dist)
                    (cellSpec f t r c).dist + 1,
                  some (.sub r (t.getD c 0)), r, c⟩ := by
              rw [hmain]
              simp only [next_cell]
              rw [if_neg hab, if_neg h1, if_neg h2]
            rw [hcell]
            refine ⟨⟨by simp, by simp, by simp; omega⟩, ?_⟩
            simp only [Option.isSome_some, if_pos]
            have hd : min (min (cellSpec f t (r + 1) c).dist (cellSpec f t r (c + 1)).dist)
                (cellSpec f t r c).dist = (cellSpec f t r c).dist := by
              omega
            rw [hd]

theorem get_trace_go_length (f t : List Nat) :
    ∀ (N r c : Nat), r + c ≤ N → r ≤ f.length → c ≤ t.length →
      (get_trace_go (lookup_table f t) N r c).length = (cellSpec f t r c).dist := by
  intro N
  induction N with
  | zero =>
      intro r c hN hr hc
      have hr0 : r = 0 := by omega
      have hc0 : c = 0 := by omega
      subst hr0; subst hc0
      simp [get_trace_go, cellSpec]
  | succ N ih =>
      intro r c hN hr hc
      by_cases h00 : r = 0 ∧ c = 0
      · obtain ⟨rfl, rfl⟩ := h00
        simp [get_trace_go, cellSpec]
      · have hcell := table_cell f t r c hr hc
        obtain ⟨⟨hb1, hb2, hbsum⟩, hdist⟩ := cellSpec_step f t r c h00
        have hrec := ih (cellSpec f t r c).last_row (cellSpec f t r c).last_col
          (by omega) (by omega) (by omega)
        have hunfold : get_trace_go (lookup_table f t) (N + 1) r c =
            (match (cellSpec f t r c).last_edit with
             | some e => [e]
             | none => []) ++
            get_trace_go (lookup_table f t) N (cellSpec f t r c).last_row
              (cellSpec f t r c).last_col := by
          match r, c with
          | 0, 0 => exact absurd ⟨rfl, rfl⟩ h00
          | rr + 1, cc =>
              rw [get_trace_go, hcell]
              intro h1 h2
              omega
          | 0, cc + 1 =>
              rw [get_trace_go, hcell]
              intro h1 h2
              omega
        rw [hunfold, List.length_append, hrec]
        cases hle : (cellSpec f t r c).last_edit with
        | some e =>
            rw [hle] at hdist
            simp at hdist
            simp [hdist]
            omega
        | none =>
            rw [hle] at hdist
            simp at hdist
            simp [hdist]

theorem get_trace_length (f t : List Nat) :
    (get_trace (lookup_table f t)).length = (cellSpec f t f.length t.length).dist := by
  have hlen : (lookup_table f t).length = f.length + 1 := by
    rw [lookup_table_eq]
    simp
  have hhead : (lookup_table f t).headD [] = rowSpec f t 0 := by
    rw [lookup_table_eq, range_map_succ]
    rfl
  have hrowlen : (rowSpec f t 0).length = t.length + 1 := by simp [rowSpec]
  rw [get_trace]
  simp only [hlen, hhead, hrowlen, Nat.add_sub_cancel]
  exact get_trace_go_length f t (f.length + t.length) f.length t.length
    (Nat.le_refl _) (Nat.le_refl _) (Nat.le_refl _)

theorem delta_edit_loop_congr_parts (o : List Nat → Bool) (orig : List Nat)
    (cur : List Edit) (p q : Nat) (hp : 2 ≤ p) (hq : 2 ≤ q) (hpq : p = q) :
    delta_edit_loop o orig cur p hp = delta_edit_loop o orig cur q hq := by
  subst hpq
  rfl

/-- If every power-of-two granularity within the loop bound fails on the
working trace, the loop never changes it again. -/
theorem delta_edit_loop_stall (o : List Nat → Bool) (orig : List Nat) (cur : List Edit)
    (hfail : ∀ j, 1 ≤ j → 2 ^ j ≤ 2 * cur.length →
      test_partitions o cur orig (2 ^ j) = none) :
    ∀ m, 1 ≤ m → ∀ (h : 2 ≤ 2 ^ m), delta_edit_loop o orig cur (2 ^ m) h = cur := by
  suffices H : ∀ k m, 2 * cur.length + 2 - 2 ^ m ≤ k → 1 ≤ m → ∀ (h : 2 ≤ 2 ^ m),
      delta_edit_loop o orig cur (2 ^ m) h = cur by
    intro m hm h
    exact H (2 * cur.length + 2 - 2 ^ m) m (Nat.le_refl _) hm h
  intro k
  induction k with
  | zero =>
      intro m hk hm h
      apply delta_edit_loop_exit
      intro hg
      omega
  | succ k ihk =>
      intro m hk hm h
      by_cases hg : 1 < cur.length ∧ 2 ^ m ≤ 2 * cur.length
      · have hnone := hfail m hm hg.2
        rw [delta_edit_loop_of_none o orig cur (2 ^ m) h hg.1 hg.2 hnone]
        have h2m : 2 * 2 ^ m = 2 ^ (m + 1) := by
          rw [Nat.pow_succ]
          omega
        rw [delta_edit_loop_congr_parts o orig cur (2 * 2 ^ m) (2 ^ (m + 1))
          (by omega) (by omega) h2m]
        exact ihk (m + 1) (by omega) (by omega) (by omega)
      · exact delta_edit_loop_exit o orig cur (2 ^ m) h hg

/-- Restarting the loop at 2 partitions on the loop's own result leaves it
unchanged, provided every smaller power-of-two granularity already failed
on the current trace (trivially true at entry, where `parts = 2`). -/
theorem delta_edit_loop_idem (o : List Nat → Bool) (orig : List Nat) :
    ∀ cur parts, 2 ≤ parts → ∀ (h : 2 ≤ parts) (k : Nat), parts = 2 ^ k → 1 ≤ k →
      (∀ j, 1 ≤ j → j < k → test_partitions o cur orig (2 ^ j) = none) →
      delta_edit_loop o orig (delta_edit_loop o orig cur parts h) 2 (Nat.le_refl 2) =
        delta_edit_loop o orig cur parts h := by
  refine delta_edit_loop_induction o orig
    (fun cur parts => ∀ (h : 2 ≤ parts) (k : Nat), parts = 2 ^ k → 1 ≤ k →
      (∀ j, 1 ≤ j → j < k → test_partitions o cur orig (2 ^ j) = none) →
      delta_edit_loop o orig (delta_edit_loop o orig cur parts h) 2 (Nat.le_refl 2) =
        delta_edit_loop o orig cur parts h)
    ?_ ?_ ?_
  · intro cur parts hp hg h k hpk hk1 hfail
    rw [delta_edit_loop_exit o orig cur parts h hg]
    by_cases hlen : 1 < cur.length
    · have hgt : ¬parts ≤ 2 * cur.length := fun hle => hg ⟨hlen, hle⟩
      rw [delta_edit_loop_congr_parts o orig cur 2 (2 ^ 1) (Nat.le_refl 2)
        (by norm_num) (by norm_num)]
      refine delta_edit_loop_stall o orig cur ?_ 1 (Nat.le_refl 1) (by norm_num)
      intro j hj1 hjle
      refine hfail j hj1 ?_
      have hjk : 2 ^ j < 2 ^ k := by omega
      exact (Nat.pow_lt_pow_iff_right (by omega)).mp hjk
    · apply delta_edit_loop_exit
      intro hg2
      omega
  · intro cur parts mask hp h1 h2 hm IH h k hpk hk1 hfail
    rw [delta_edit_loop_of_some o orig cur parts h mask h1 h2 hm]
    refine IH (Nat.le_refl 2) 1 rfl (Nat.le_refl 1) ?_
    intro j hj1 hjk
    omega
  · intro cur parts hp h1 h2 hm IH h k hpk hk1 hfail
    rw [delta_edit_loop_of_none o orig cur parts h h1 h2 hm]
    refine IH (by omega) (k + 1) ?_ (by omega) ?_
    · rw [hpk, Nat.pow_succ]
      omega
    · intro j hj1 hjk
      by_cases hjk' : j < k
      · exact hfail j hj1 hjk'
      · have hj : j = k := by omega
        rw [hj, ← hpk]
        exact hm

/-! ## Claim theorems -/

/-- C1: the round-trip claim `apply(compute(A,B).trace, A) = B` FAILS on the
code.  For `A = "c"` (`[99]`) and `B = "abc"` (`[97,98,99]`) the backward
walk leaves the interior through a byte match into table row 0, whose
initialization records inserts at position `j-1` (an offset into `B`),
inconsistent with the end-first order in which the trace is applied: the
trace is `[ins 1 98, ins 0 97]` and applying it to `"c"` yields `"acb"`,
not `"abc"`.  A second slip: for empty `A` the all-insert trace is a
no-op because `apply_edit` returns immediately on an empty buffer. -/
theorem C1_round_trip_fails_on_code :
    (edit_distance [99] [97, 98, 99]).2 = [.ins 1 98, .ins 0 97] ∧
    apply_edits (edit_distance [99] [97, 98, 99]).2 [99] [] = [97, 99, 98] ∧
    apply_edits (edit_distance [99] [97, 98, 99]).2 [99] [] ≠ [97, 98, 99] ∧
    apply_edits (edit_distance [] [97]).2 [] [] = [] := by
  refine ⟨?_, ?_, ?_, ?_⟩ <;> decide

/-- C4 counterexample: the claim says an Insert edit always grows the
buffer by one byte, "including the empty buffer"; but `apply_edit` returns
immediately on an empty buffer, so an insert into `[]` is a no-op. -/
theorem C4_counterexample :
    apply_edit (.ins 0 97) [] = [] ∧
    ¬(apply_edit (.ins 0 97) []).length = ([] : List Nat).length + 1 := by
  decide

/-- C4 (amended): for every NON-EMPTY buffer, applying an Insert edit
clamps the position to the buffer length and inserts the byte there, so
the buffer grows by exactly one byte; on the empty buffer `apply_edit`
is a no-op (see the counterexample). -/
theorem C4_insert_grows_nonempty (orig : List Nat) (idx b : Nat) (h : orig ≠ []) :
    apply_edit (.ins idx b) orig =
      orig.take (min idx orig.length) ++ b :: orig.drop (min idx orig.length) ∧
    (apply_edit (.ins idx b) orig).length = orig.length + 1 := by
  have hne : ¬orig.isEmpty = true := by
    simpa [List.isEmpty_iff] using h
  have heq : apply_edit (.ins idx b) orig =
      orig.take (min idx orig.length) ++ b :: orig.drop (min idx orig.length) := by
    rw [apply_edit, if_neg hne]
    by_cases hc : orig.length ≤ idx
    · simp only [if_pos hc]
      rw [Nat.min_eq_right hc]
    · simp only [if_neg hc]
      rw [Nat.min_eq_left (by omega)]
  refine ⟨heq, ?_⟩
  rw [heq]
  have hmin : min idx orig.length ≤ orig.length := Nat.min_le_right idx orig.length
  simp [List.length_append, List.length_take, List.length_drop]
  omega

/-- C4 witness: inserting byte 99 at out-of-range position 7 into `[1,2]`
clamps to position 2 and yields a buffer of length 3. -/
theorem C4_insert_grows_nonempty_witness :
    apply_edit (.ins 7 99) [1, 2] =
      ([1, 2] : List Nat).take (min 7 2) ++ 99 :: ([1, 2] : List Nat).drop (min 7 2) ∧
    (apply_edit (.ins 7 99) [1, 2]).length = ([1, 2] : List Nat).length + 1 :=
  C4_insert_grows_nonempty [1, 2] 7 99 (by decide)

/-- C6: the number of edits collected by the backward walk equals the
distance in the bottom-right table cell, for every pair of sequences. -/
theorem C6_trace_length_eq_distance (f t : List Nat) :
    (edit_distance f t).2.length = (edit_distance f t).1 := by
  simp only [edit_distance]
  rw [get_trace_length f t,
    table_cell f t f.length t.length (Nat.le_refl _) (Nat.le_refl _)]

/-- C10: applying any edit trace under any mask to an empty base sequence
returns the empty sequence: `apply_edit` is a no-op on an empty buffer for
all three edit kinds (the `if (orig.empty()) return;` guard), so no edit
in the iteration ever makes the buffer non-empty. -/
theorem C10_apply_edits_empty_base (trace : List Edit) (mask : List Bool) :
    apply_edits trace [] mask = [] ∧ ∀ e : Edit, apply_edit e [] = [] := by
  refine ⟨?_, fun e => rfl⟩
  induction trace generalizing mask with
  | nil => cases mask <;> rfl
  | cons e es ih =>
      cases mask with
      | nil =>
          show apply_edits es (apply_edit e []) [] = []
          rw [show apply_edit e [] = ([] : List Nat) from rfl]
          exact ih []
      | cons m ms =>
          show apply_edits es (if m then apply_edit e [] else []) ms = []
          cases m
          · exact ih ms
          · rw [show apply_edit e [] = ([] : List Nat) from rfl]
            exact ih ms

/-- The oracle of scenario B: true exactly on non-empty byte sequences. -/
def nonempty_oracle : List Nat → Bool := fun buf => !buf.isEmpty

/-- `"hello"` as bytes. -/
def hello_bytes : List Nat := [104, 101, 108, 108, 111]

/-- `"goodbye"` as bytes. -/
def goodbye_bytes : List Nat := [103, 111, 111, 100, 98, 121, 101]

/-- Concrete run of `delta_edit` on the full `hello → goodbye` trace with
the non-empty oracle: every first-chunk test succeeds (each candidate is
non-empty), so the working trace shrinks 7 → 4 → 2 → 1 and the loop stops
at the single-edit trace `[ins 5 101]` — it can never reach the empty
trace because the loop guard requires `size() > 1`. -/
theorem delta_edit_scenario_value :
    delta_edit nonempty_oracle (edit_distance hello_bytes goodbye_bytes).2 hello_bytes =
      [.ins 5 101] := by
  have htrace : (edit_distance hello_bytes goodbye_bytes).2 =
      [.ins 5 101, .ins 5 121, .sub 4 98, .sub 3 100, .sub 2 111, .sub 1 111,
        .sub 0 103] := by
    decide
  rw [delta_edit, htrace]
  rw [delta_edit_loop_of_some nonempty_oracle hello_bytes _ 2 (Nat.le_refl 2)
    [true, true, true, true, false, false, false] (by decide) (by decide) (by decide)]
  rw [show mask_filter
      [Edit.ins 5 101, Edit.ins 5 121, Edit.sub 4 98, Edit.sub 3 100, Edit.sub 2 111,
        Edit.sub 1 111, Edit.sub 0 103]
      [true, true, true, true, false, false, false] =
      [Edit.ins 5 101, Edit.ins 5 121, Edit.sub 4 98, Edit.sub 3 100] from by decide]
  rw [delta_edit_loop_of_some nonempty_oracle hello_bytes _ 2 (Nat.le_refl 2)
    [true, true, false, false] (by decide) (by decide) (by decide)]
  rw [show mask_filter [Edit.ins 5 101, Edit.ins 5 121, Edit.sub 4 98, Edit.sub 3 100]
      [true, true, false, false] = [Edit.ins 5 101, Edit.ins 5 121] from by decide]
  rw [delta_edit_loop_of_some nonempty_oracle hello_bytes _ 2 (Nat.le_refl 2)
    [true, false] (by decide) (by decide) (by decide)]
  rw [show mask_filter [Edit.ins 5 101, Edit.ins 5 121] [true, false] =
      [Edit.ins 5 101] from by decide]
  exact delta_edit_loop_exit nonempty_oracle hello_bytes [Edit.ins 5 101] 2
    (Nat.le_refl 2) (by decide)

/-- C2 counterexample: with the oracle that accepts exactly the non-empty
sequences, `delta_edit` on the `hello → goodbye` trace does NOT return the
empty trace, and applying its result to `"hello"` does not give `"hello"`
back (it gives `"helloe"`). -/
theorem C2_counterexample :
    ¬(delta_edit nonempty_oracle (edit_distance hello_bytes goodbye_bytes).2
        hello_bytes = [] ∧
      apply_edits (delta_edit nonempty_oracle
        (edit_distance hello_bytes goodbye_bytes).2 hello_bytes) hello_bytes [] =
        hello_bytes) := by
  rw [delta_edit_scenario_value]
  decide

/-- C2 (amended): with the non-empty oracle, `delta_edit` on the full
`hello → goodbye` trace with base `"hello"` returns the single-edit trace
`[ins 5 101]` — the loop stops at length 1 and never returns an empty
trace — so applying the result to the base yields `"helloe"`
(`[104,101,108,108,111,101]`), one edit away from `"hello"`. -/
theorem C2_amended_single_edit :
    delta_edit nonempty_oracle (edit_distance hello_bytes goodbye_bytes).2 hello_bytes =
      [.ins 5 101] ∧
    (delta_edit nonempty_oracle (edit_distance hello_bytes goodbye_bytes).2
      hello_bytes).length = 1 ∧
    apply_edits (delta_edit nonempty_oracle
      (edit_distance hello_bytes goodbye_bytes).2 hello_bytes) hello_bytes [] =
      [104, 101, 108, 108, 111, 101] := by
  refine ⟨delta_edit_scenario_value, ?_, ?_⟩ <;> rw [delta_edit_scenario_value] <;> decide

/-- C3: for every trace, base and (pure, hence deterministic) oracle, if
the oracle accepts the full-trace application on entry, it accepts the
unmasked application of the trace `delta_edit` returns, and it accepted
the unmasked application of every intermediate replacement of the working
trace (each surviving mask's application equals the application of the
filtered trace, `apply_edits_mask_filter`). -/
theorem C3_delta_edit_preserves_oracle (o : List Nat → Bool) (trace : List Edit)
    (base : List Nat) (h : o (apply_edits trace base []) = true) :
    o (apply_edits (delta_edit o trace base) base []) = true ∧
    ∀ t ∈ delta_edit_hist o trace base, o (apply_edits t base []) = true := by
  rw [delta_edit, delta_edit_hist]
  exact delta_edit_loop_oracle_inv o base trace 2 (Nat.le_refl 2) (Nat.le_refl 2) h

/-- C3 witness at a concrete instance: deleting the head of `[7,8]`
leaves a non-empty sequence, so the non-empty oracle accepts the entry
application, and the conclusions hold at this input. -/
theorem C3_witness :
    nonempty_oracle (apply_edits [Edit.del 0] [7, 8] []) = true ∧
    (nonempty_oracle
        (apply_edits (delta_edit nonempty_oracle [Edit.del 0] [7, 8]) [7, 8] []) =
      true ∧
    ∀ t ∈ delta_edit_hist nonempty_oracle [Edit.del 0] [7, 8],
      nonempty_oracle (apply_edits t [7, 8] []) = true) :=
  ⟨by decide, C3_delta_edit_preserves_oracle nonempty_oracle [Edit.del 0] [7, 8]
    (by decide)⟩

/-- C8: the working trace of `delta_edit` never grows: every replacement
has length at most its predecessor's (the chain over the whole replacement
history), and the returned trace is no longer than the input trace. -/
theorem C8_delta_edit_length_monotone (o : List Nat → Bool) (trace : List Edit)
    (base : List Nat) :
    (delta_edit o trace base).length ≤ trace.length ∧
    List.Chain' (fun a b => b.length ≤ a.length)
      (trace :: delta_edit_hist o trace base) := by
  rw [delta_edit, delta_edit_hist]
  exact delta_edit_loop_length_inv o base trace 2 (Nat.le_refl 2) (Nat.le_refl 2)

/-- C9: `delta_edit` is idempotent: running it on its own output with the
same base and oracle returns that output unchanged.  (The run that
produced the output already exhausted every granularity on it.) -/
theorem C9_delta_edit_idempotent (o : List Nat → Bool) (trace : List Edit)
    (base : List Nat) (_h : o (apply_edits trace base []) = true) :
    delta_edit o (delta_edit o trace base) base = delta_edit o trace base := by
  simp only [delta_edit]
  exact delta_edit_loop_idem o base trace 2 (Nat.le_refl 2) (Nat.le_refl 2) 1 rfl
    (Nat.le_refl 1) (fun j hj1 hjk => absurd hjk (by omega))

/-- C9 witness at a concrete instance satisfying the entry precondition. -/
theorem C9_witness :
    nonempty_oracle (apply_edits [Edit.del 0] [7, 8] []) = true ∧
    delta_edit nonempty_oracle (delta_edit nonempty_oracle [Edit.del 0] [7, 8]) [7, 8] =
      delta_edit nonempty_oracle [Edit.del 0] [7, 8] :=
  ⟨by decide, C9_delta_edit_idempotent nonempty_oracle [Edit.del 0] [7, 8] (by decide)⟩

/-- C5: in every interior table cell built on a byte mismatch, the edit
recorded by `edit_distance` follows the fixed tie-break order: insert
whenever the insert cost is minimal (even on ties), else delete whenever
the delete cost is minimal, else substitute.  Cell `(r+1, c+1)` compares
`from[r]` with `to[c]`; its insert predecessor is `(r+1, c)`, its delete
predecessor `(r, c+1)`, its substitute predecessor `(r, c)`. -/
theorem C5_mismatch_tie_break (f t : List Nat) (r c : Nat)
    (hr : r < f.length) (hc : c < t.length) (hab : f.getD r 0 ≠ t.getD c 0) :
    ((((lookup_table f t).getD (r + 1) []).getD c default).dist ≤
        (((lookup_table f t).getD r []).getD (c + 1) default).dist →
      (((lookup_table f t).getD (r + 1) []).getD c default).dist ≤
        (((lookup_table f t).getD r []).getD c default).dist →
      (((lookup_table f t).getD (r + 1) []).getD (c + 1) default).last_edit =
        some (.ins (r + 1) (t.getD c 0))) ∧
    ((((lookup_table f t).getD r []).getD (c + 1) default).dist <
        (((lookup_table f t).getD (r + 1) []).getD c default).dist →
      (((lookup_table f t).getD r []).getD (c + 1) default).dist ≤
        (((lookup_table f t).getD r []).getD c default).dist →
      (((lookup_table f t).getD (r + 1) []).getD (c + 1) default).last_edit =
        some (.del r)) ∧
    ((((lookup_table f t).getD r []).getD c default).dist <
        (((lookup_table f t).getD (r + 1) []).getD c default).dist →
      (((lookup_table f t).getD r []).getD c default).dist <
        (((lookup_table f t).getD r []).getD (c + 1) default).dist →
      (((lookup_table f t).getD (r + 1) []).getD (c + 1) default).last_edit =
        some (.sub r (t.getD c 0))) := by
  have hl := table_cell f t (r + 1) c (by omega) (by omega)
  have hu := table_cell f t r (c + 1) (by omega) (by omega)
  have hd := table_cell f t r c (by omega) (by omega)
  have hme := table_cell f t (r + 1) (c + 1) (by omega) (by omega)
  rw [hl, hu, hd, hme]
  have hmain : cellSpec f t (r + 1) (c + 1) =
      next_cell r c (f.getD r 0) (t.getD c 0)
        (cellSpec f t (r + 1) c) (cellSpec f t r (c + 1)) (cellSpec f t r c) := by
    simp [cellSpec]
  rw [hmain]
  simp only [next_cell]
  rw [if_neg hab]
  refine ⟨?_, ?_, ?_⟩
  · intro h1 h2
    rw [if_pos (by omega)]
  · intro h1 h2
    rw [if_neg (by omega), if_pos (by omega)]
  · intro h1 h2
    rw [if_neg (by omega), if_neg (by omega)]

/-- C5 witness: for `from = "ab"` and `to = "ba"` all three costs at the
bottom-right cell are equal (a three-way tie), and the recorded edit is
the insert. -/
theorem C5_mismatch_tie_break_witness :
    (((lookup_table [97, 98] [98, 97]).getD 2 []).getD 2 default).last_edit =
      some (.ins 2 97) :=
  (C5_mismatch_tie_break [97, 98] [98, 97] 1 1 (by decide) (by decide) (by decide)).1
    (by decide) (by decide)

/-- C7: `find_closest_initial` fails (the `std::logic_error` throw,
modelled as `Except.error`) exactly when the corpus is empty; on a
non-empty corpus it returns the seed with the smallest edit distance to
the crash, ties resolved to the first such seed in corpus order (every
earlier seed has strictly greater distance).  The corpus is passed by
value in the embedding and never mutated, matching the read-only loop of
the source. -/
theorem C7_find_closest_initial_spec (corpus : List (List Nat)) (crash : List Nat) :
    ((∃ msg, find_closest_initial corpus crash = .error msg) ↔ corpus = []) ∧
    ∀ s, find_closest_initial corpus crash = .ok s →
      ∃ pre post, corpus = pre ++ s :: post ∧
        (∀ u ∈ pre, (edit_distance s crash).1 < (edit_distance u crash).1) ∧
        (∀ u ∈ corpus, (edit_distance s crash).1 ≤ (edit_distance u crash).1) := by
  cases corpus with
  | nil =>
      constructor
      · exact ⟨fun _ => rfl, fun _ => ⟨"No testcases specified!", rfl⟩⟩
      · intro s hs
        cases hs
  | cons c rest =>
      have hstep : find_closest_initial (c :: rest) crash =
          match rest.foldl (closest_fold crash)
            (some ((edit_distance c crash).1, c)) with
          | some (_, p) => .ok p
          | none => .error "No testcases specified!" := by
        rw [find_closest_initial, if_neg (by simp)]
        rfl
      obtain ⟨d, s, hfold, hcase⟩ :=
        closest_fold_spec crash rest (edit_distance c crash).1 c
      rw [hfold] at hstep
      constructor
      · constructor
        · intro ⟨msg, hmsg⟩
          rw [hstep] at hmsg
          cases hmsg
        · intro hempty
          cases hempty
      · intro s' hs'
        rw [hstep] at hs'
        rcases Except.ok.inj hs' with rfl
        rcases hcase with ⟨rfl, hdd, hall⟩ | ⟨pre, post, hsplit, hdd, hdlt, hpre, hpost⟩
        · refine ⟨[], rest, rfl, by simp, ?_⟩
          intro u hu
          rcases List.mem_cons.mp hu with rfl | hu
          · exact Nat.le_refl _
          · exact hall u hu
        · subst hdd
          refine ⟨c :: pre, post, by rw [hsplit, List.cons_append], ?_, ?_⟩
          · intro u hu
            rcases List.mem_cons.mp hu with rfl | hu
            · omega
            · exact hpre u hu
          · intro u hu
            rcases List.mem_cons.mp hu with rfl | hu
            · omega
            · rw [hsplit] at hu
              rcases List.mem_append.mp hu with hu | hu
              · exact Nat.le_of_lt (hpre u hu)
              · rcases List.mem_cons.mp hu with rfl | hu
                · exact Nat.le_refl _
                · exact hpost u hu

/-- C7 witness (scenario C): on the corpus `{"hello", "foo"}` with crash
`"helo"`, selection returns `"hello"` (distance 1 beats distance ≥ 3). -/
theorem C7_find_closest_initial_witness :
    ∃ pre post,
      [[104, 101, 108, 108, 111], [102, 111, 111]] =
        pre ++ [104, 101, 108, 108, 111] :: post ∧
      (∀ u ∈ pre,
        (edit_distance [104, 101, 108, 108, 111] [104, 101, 108, 111]).1 <
          (edit_distance u [104, 101, 108, 111]).1) ∧
      (∀ u ∈ [[104, 101, 108, 108, 111], [102, 111, 111]],
        (edit_distance [104, 101, 108, 108, 111] [104, 101, 108, 111]).1 ≤
          (edit_distance u [104, 101, 108, 111]).1) :=
  (C7_find_closest_initial_spec [[104, 101, 108, 108, 111], [102, 111, 111]]
    [104, 101, 108, 111]).2 [104, 101, 108, 108, 111] (by rfl)

end AflTminDelta
